import Mathlib

/-!
Verification of the square-root-convergent digit-counting program.

The program computes, for the continued-fraction convergents `n_i / d_i` of √2
(recurrence `n_0 = d_0 = 1`, `n_{i+1} = n_i + 2 d_i`, `d_{i+1} = n_i + d_i`),
how many of the first `n` expansions have a numerator with strictly more
decimal digits than the denominator.  The source does this with a closed-form
method: floating-point base-10 logarithms of the dominant-eigenvalue growth
`n_i ≈ ((1+√2)/2)·(1+√2)^i`, `d_i ≈ ((2+√2)/4)·(1+√2)^i`, ceilings of
digit-crossing indices, and a loop over digit counts.

The embedding models the floating-point arithmetic by exact real arithmetic
(`Real.sqrt`, `Real.logb`, `Int.ceil`, `Int.floor`) applied to the very same
formulas.  All floors/ceilings of logarithms appearing in the program are then
reduced, exactly, to integer comparisons in ℤ[√2] (a pair `(a, b)` standing for
`a + b·√2`), which makes every value of the program computable and lets the
kernel evaluate it on concrete inputs.
-/

namespace Euler57

/-- One step of the convergent recurrence: `(n, d) ↦ (n + 2d, n + d)`.
This is simultaneously the multiplication by `1 + √2` on ℤ[√2] coefficient
pairs: `(1+√2)·(a + b√2) = (a+2b) + (a+b)√2`. -/
def step (p : ℕ × ℕ) : ℕ × ℕ := (p.1 + 2 * p.2, p.1 + p.2)

/-- Coefficients of `(1+√2)^m` in ℤ[√2]: `lpair m = (a, b)` with
`(1+√2)^m = a + b√2`.  One has `lpair (i+1) = (n_i, d_i)`, the numerator and
denominator of the `i`-th convergent. -/
def lpair : ℕ → ℕ × ℕ
  | 0 => (1, 0)
  | m + 1 => step (lpair m)

/-- Numerator `n_i` of the `i`-th expansion (`num 0 = 1`, `num 1 = 3`, …). -/
def num (i : ℕ) : ℕ := (lpair (i + 1)).1

/-- Denominator `d_i` of the `i`-th expansion (`den 0 = 1`, `den 1 = 2`, …). -/
def den (i : ℕ) : ℕ := (lpair (i + 1)).2

/-- Fuel-driven decimal digit counter: `digAux f x` counts the base-10 digits
of `x` provided `1 ≤ x ≤ f`. -/
def digAux : ℕ → ℕ → ℕ
  | 0, _ => 0
  | f + 1, x => if x < 10 then 1 else digAux f (x / 10) + 1

/-- Number of decimal digits of a positive natural number
(`digits10 x = ⌊log10 x⌋ + 1`). -/
def digits10 (x : ℕ) : ℕ := digAux x x

/-- Brute-force oracle auxiliary: starting from the pair `p` (the convergent at
some index), advance the exact-integer recurrence `f` times and count how many
of the generated convergents have more digits in the numerator than in the
denominator. -/
def bruteAux : ℕ → ℕ × ℕ → ℕ
  | 0, _ => 0
  | f + 1, p =>
    (if digits10 (step p).2 < digits10 (step p).1 then 1 else 0) + bruteAux f (step p)

/-- Brute-force oracle: the number of indices `i ∈ [1, n]` whose convergent
`n_i / d_i`, generated by the exact integer recurrence, has strictly more
decimal digits in the numerator than in the denominator. -/
def bruteCount (n : ℕ) : ℕ := bruteAux n (1, 1)

/-- Exact decision of `t ≤ a + b·√2` for naturals `t a b`:
either `t ≤ a`, or the gap `t - a` satisfies `(t-a)² ≤ 2b²`. -/
def geQ (t av bv : ℕ) : Bool := decide (t ≤ av) || decide ((t - av) ^ 2 ≤ 2 * bv ^ 2)

/-- Bounded linear search: the least offset `k < f` (or `f` if none) such that
`P` holds at the `k`-fold `step`-iterate of `p`. -/
def searchIdx (P : ℕ × ℕ → Bool) : ℕ → ℕ × ℕ → ℕ
  | 0, _ => 0
  | f + 1, p => if P p then 0 else searchIdx P f (step p) + 1

/-- Computable value of the numerator crossing ceiling
`⌈(c − 1 − log10((1+√2)/2)) / log10(1+√2)⌉`: the least `m ≥ 0` with
`(1+√2)^(m+1) ≥ 2·10^(c-1)`, found by exact search in ℤ[√2]. -/
def ceilN (c : ℕ) : ℕ :=
  searchIdx (fun p => geQ (2 * 10 ^ (c - 1)) p.1 p.2) (2 * 10 ^ (c - 1)) (lpair 1)

/-- Computable value of the denominator crossing ceiling
`⌈(c − 1 − log10((2+√2)/4)) / log10(1+√2)⌉`: the least `m ≥ 0` with
`√2·(1+√2)^(m+1) ≥ 4·10^(c-1)`, found by exact search in ℤ[√2]. -/
def ceilD (c : ℕ) : ℕ :=
  searchIdx (fun p => geQ (4 * 10 ^ (c - 1)) (2 * p.2) p.1) (2 * 10 ^ (c - 1)) (lpair 1)

/-- Computable value of the program's loop bound `c_max`: one less than the
decimal digit count of the exact numerator `n_n`. -/
def cmaxC (n : ℕ) : ℕ := digits10 (num n) - 1

/-- Computable mirror of the whole closed-form computation: the same loop as
the program, with every floor/ceiling of logarithms replaced by its exact
ℤ[√2] value. -/
def S (n : ℕ) : ℤ :=
  ∑ cc ∈ Finset.range (cmaxC n),
    (min ((ceilD (cc + 1) : ℤ)) 1000 - min ((ceilN (cc + 1) : ℤ)) (n : ℤ))

/-- Fast equivalent of `bruteAux`, tracking the power `pw = 10^(digits10 de)`
incrementally instead of recounting digits at every index. -/
def bruteFast : ℕ → ℕ → ℕ → ℕ → ℕ
  | 0, _, _, _ => 0
  | f + 1, nu, de, pw =>
    (if (if pw ≤ nu + de then 10 * pw else pw) ≤ nu + 2 * de then 1 else 0) +
      bruteFast f (nu + 2 * de) (nu + de) (if pw ≤ nu + de then 10 * pw else pw)

/-- Resumable variant of the numerator crossing search: starting from index `m`
with the coefficients of `(1+√2)^(m+1)`, advance to the least index at or after
`m` whose value reaches the threshold `t` (in the sense of `geQ t a b`). -/
def advN (t : ℕ) : ℕ → ℕ → ℕ → ℕ → ℕ × ℕ × ℕ
  | 0, m, a, bv => (m, a, bv)
  | f + 1, m, a, bv =>
    if geQ t a bv then (m, a, bv) else advN t f (m + 1) (a + 2 * bv) (a + bv)

/-- Resumable variant of the denominator crossing search (threshold test
`geQ t (2b) a`, deciding `t ≤ 2b + a√2`). -/
def advD (t : ℕ) : ℕ → ℕ → ℕ → ℕ → ℕ × ℕ × ℕ
  | 0, m, a, bv => (m, a, bv)
  | f + 1, m, a, bv =>
    if geQ t (2 * bv) a then (m, a, bv) else advD t f (m + 1) (a + 2 * bv) (a + bv)

/-- Fused sweep over the digit thresholds `c, c+1, …`: carries `p10 = 10^(c-1)`
and the two resumable crossing searches, and accumulates the program's loop
terms.  Equivalent to `S` but evaluates in one pass. -/
def sweepAux (n : ℕ) : ℕ → ℕ → ℕ × ℕ × ℕ → ℕ × ℕ × ℕ → ℤ
  | 0, _, _, _ => 0
  | cnt + 1, p10, sN, sD =>
    (min (((advD (4 * p10) (2 * p10) sD.1 sD.2.1 sD.2.2).1 : ℤ)) 1000 -
        min (((advN (2 * p10) (2 * p10) sN.1 sN.2.1 sN.2.2).1 : ℤ)) (n : ℤ)) +
      sweepAux n cnt (10 * p10) (advN (2 * p10) (2 * p10) sN.1 sN.2.1 sN.2.2)
        (advD (4 * p10) (2 * p10) sD.1 sD.2.1 sD.2.2)

/-- Single-pass evaluator for the whole closed-form computation. -/
def S2 (n : ℕ) : ℤ := sweepAux n (cmaxC n) 1 (0, 1, 1) (0, 1, 1)

/-- Invariant of the convergent pairs: `1 ≤ d ≤ n ≤ 2d`. -/
def goodPair (p : ℕ × ℕ) : Prop := 1 ≤ p.2 ∧ p.2 ≤ p.1 ∧ p.1 ≤ 2 * p.2

/-- The constant `b = (2 + √2) / 4` of the source (leading coefficient of the
denominator growth). -/
noncomputable def b : ℝ := (2 + Real.sqrt 2) / 4

/-- The dominant eigenvalue `e = λ2 = 1 + √2` of the source. -/
noncomputable def e : ℝ := 1 + Real.sqrt 2

/-- Base-10 logarithm, the idealized-real semantics of Python's `math.log10`. -/
noncomputable def log10 (x : ℝ) : ℝ := Real.logb 10 x

/-- The source's `i_n`: `min(ceil((c - 1 - log10(b) - log10(2)/2) / log10(e)), n)`,
the first index whose numerator reaches `c` digits, clamped to `n`. -/
noncomputable def i_n (c n : ℕ) : ℤ :=
  min ⌈((c : ℝ) - 1 - log10 b - log10 2 / 2) / log10 e⌉ (n : ℤ)

/-- The source's `i_d`: `min(ceil((c - 1 - log10(b)) / log10(e)), 1000)`, the
first index whose denominator reaches `c` digits, clamped to the literal
`1000` hard-coded in the source. -/
noncomputable def i_d (c : ℕ) : ℤ :=
  min ⌈((c : ℝ) - 1 - log10 b) / log10 e⌉ 1000

/-- Modelled from the spec: step 3b's denominator crossing index
`i_d(c) = min(ceil((c − 1 − log10(b)) / log10(λ2)), n)` with the clamp at the
caller-supplied `n`, which the spec states as the intended formula (its §9
calls the source's literal `1000` a bug to avoid replicating). -/
noncomputable def i_dSpec (c n : ℕ) : ℤ :=
  min ⌈((c : ℝ) - 1 - log10 b) / log10 e⌉ (n : ℤ)

/-- The source's `c_max = floor(log10(b) + log10(2)/2 + n*log10(e))`. -/
noncomputable def c_max (n : ℕ) : ℤ :=
  ⌊log10 b + log10 2 / 2 + (n : ℝ) * log10 e⌋

/-- The source's loop `for c in range(1, c_max+1): count += i_d - i_n`,
returning the accumulated `count`. -/
noncomputable def mainLoop (n : ℕ) : ℤ :=
  ∑ cc ∈ Finset.range (c_max n).toNat, (i_d (cc + 1) - i_n (cc + 1) n)

/-- Failure condition of `main` when the argument is not a positive integer
(the source's `assert type(n) == int and n > 0`). -/
inductive Err where
  | invalidArgument

/-- The source's `main`: checks the precondition `n > 0` and runs the
closed-form loop; a violated precondition is the InvalidArgument failure. -/
noncomputable def main (n : ℤ) : Except Err ℤ :=
  if 0 < n then Except.ok (mainLoop n.toNat) else Except.error Err.invalidArgument

/-! Basic facts about `√2` and the constants of the program. -/

lemma sqrt2_nonneg : 0 ≤ Real.sqrt 2 := Real.sqrt_nonneg 2

lemma sqrt2_sq : Real.sqrt 2 * Real.sqrt 2 = 2 := Real.mul_self_sqrt (by norm_num)

lemma one_lt_sqrt2 : 1 < Real.sqrt 2 := by
  have h : (1 : ℝ) < Real.sqrt 2 ↔ (1 : ℝ) ^ 2 < 2 := Real.lt_sqrt (by norm_num)
  rw [h]
  norm_num

lemma sqrt2_lt_two : Real.sqrt 2 < 2 := by
  have h : Real.sqrt 2 < (2 : ℝ) ↔ (2 : ℝ) < 2 ^ 2 := Real.sqrt_lt' (by norm_num)
  rw [h]
  norm_num

lemma sqrt2_pos : 0 < Real.sqrt 2 := lt_trans one_pos one_lt_sqrt2

lemma e_pos : 0 < e := by unfold e; linarith [sqrt2_pos]

lemma one_lt_e : 1 < e := by unfold e; linarith [sqrt2_pos]

lemma e_ne_zero : e ≠ 0 := ne_of_gt e_pos

lemma b_pos : 0 < b := by unfold b; nlinarith [sqrt2_pos]

lemma b_ne_zero : b ≠ 0 := ne_of_gt b_pos

lemma b_mul_sqrt2 : b * Real.sqrt 2 = e / 2 := by
  unfold b e
  have h := sqrt2_sq
  nlinarith [h]

lemma b_eq_sqrt2_e_div4 : b = Real.sqrt 2 * e / 4 := by
  unfold b e
  have h := sqrt2_sq
  nlinarith [h]

lemma one_lt_ten : (1 : ℝ) < 10 := by norm_num

lemma L_pos : 0 < log10 e := Real.logb_pos one_lt_ten one_lt_e

/-! Exact values of `(1+√2)^m` and its conjugate via the pair sequence. -/

lemma lpair_succ_fst (m : ℕ) : (lpair (m + 1)).1 = (lpair m).1 + 2 * (lpair m).2 := rfl

lemma lpair_succ_snd (m : ℕ) : (lpair (m + 1)).2 = (lpair m).1 + (lpair m).2 := rfl

lemma lpair_val (m : ℕ) :
    ((lpair m).1 : ℝ) + ((lpair m).2 : ℝ) * Real.sqrt 2 = e ^ m := by
  induction m with
  | zero => simp [lpair]
  | succ k ih =>
    rw [lpair_succ_fst, lpair_succ_snd, pow_succ, ← ih]
    push_cast
    unfold e
    linear_combination (-((lpair k).2 : ℝ)) * sqrt2_sq

lemma lpair_conj (m : ℕ) :
    ((lpair m).1 : ℝ) - ((lpair m).2 : ℝ) * Real.sqrt 2 = (1 - Real.sqrt 2) ^ m := by
  induction m with
  | zero => simp [lpair]
  | succ k ih =>
    rw [lpair_succ_fst, lpair_succ_snd, pow_succ, ← ih]
    push_cast
    linear_combination (-((lpair k).2 : ℝ)) * sqrt2_sq

lemma lpair_conj_abs_lt_one (m : ℕ) (hm : 1 ≤ m) :
    |((lpair m).1 : ℝ) - ((lpair m).2 : ℝ) * Real.sqrt 2| < 1 := by
  rw [lpair_conj]
  rw [abs_pow]
  have h1 : |1 - Real.sqrt 2| = Real.sqrt 2 - 1 := by
    rw [abs_of_neg (by linarith [one_lt_sqrt2])]
    ring
  rw [h1]
  calc (Real.sqrt 2 - 1) ^ m ≤ (Real.sqrt 2 - 1) ^ 1 := by
        apply pow_le_pow_of_le_one (by linarith [one_lt_sqrt2]) (by linarith [sqrt2_lt_two]) hm
    _ < 1 := by rw [pow_one]; linarith [sqrt2_lt_two]

lemma lpair_a_odd (m : ℕ) : (lpair m).1 % 2 = 1 := by
  induction m with
  | zero => rfl
  | succ k ih => rw [lpair_succ_fst, Nat.add_mul_mod_self_left]; exact ih

lemma lpair_ge (m : ℕ) :
    m + 1 ≤ (lpair (m + 1)).1 ∧ m ≤ (lpair (m + 1)).2 ∧ 1 ≤ (lpair (m + 1)).2 := by
  induction m with
  | zero => exact ⟨le_refl 1, Nat.zero_le 1, le_refl 1⟩
  | succ k ih =>
    have h1 : (lpair (k + 1 + 1)).1 = (lpair (k + 1)).1 + 2 * (lpair (k + 1)).2 := rfl
    have h2 : (lpair (k + 1 + 1)).2 = (lpair (k + 1)).1 + (lpair (k + 1)).2 := rfl
    omega

lemma lpair_a_pos (m : ℕ) : 1 ≤ (lpair m).1 := by
  cases m with
  | zero => exact le_refl 1
  | succ k => exact le_trans (Nat.le_add_left 1 k) (lpair_ge k).1

lemma lpair_a_ge_three (m : ℕ) (hm : 2 ≤ m) : 3 ≤ (lpair m).1 := by
  obtain ⟨k, rfl⟩ : ∃ k, m = k + 2 := ⟨m - 2, by omega⟩
  have h1 : (lpair (k + 2)).1 = (lpair (k + 1)).1 + 2 * (lpair (k + 1)).2 := rfl
  have h2 := lpair_a_pos (k + 1)
  have h3 : (lpair (k + 1)).2 = (lpair k).1 + (lpair k).2 := rfl
  have h4 := lpair_a_pos k
  omega

/-! Decimal digit counting. -/

lemma digAux_eq_log : ∀ f x : ℕ, 1 ≤ x → x ≤ f → digAux f x = Nat.log 10 x + 1 := by
  intro f
  induction f with
  | zero => intro x hx hf; omega
  | succ k ih =>
    intro x hx hf
    by_cases h10 : x < 10
    · simp only [digAux, if_pos h10]
      rw [Nat.log_of_lt h10]
    · simp only [digAux, if_neg h10]
      push_neg at h10
      have hdiv1 : 1 ≤ x / 10 := (Nat.one_le_div_iff (by norm_num)).mpr h10
      have hdiv2 : x / 10 ≤ k := by
        have := Nat.div_lt_self (by omega : 0 < x) (by norm_num : 1 < 10)
        omega
      rw [ih (x / 10) hdiv1 hdiv2, Nat.log_of_one_lt_of_le (by norm_num) h10]

lemma digits10_eq_log (x : ℕ) (hx : 1 ≤ x) : digits10 x = Nat.log 10 x + 1 :=
  digAux_eq_log x x hx (le_refl x)

lemma digits10_pos (x : ℕ) (hx : 1 ≤ x) : 1 ≤ digits10 x := by
  rw [digits10_eq_log x hx]; omega

lemma pow_digits10_pred_le (x : ℕ) (hx : 1 ≤ x) : 10 ^ (digits10 x - 1) ≤ x := by
  rw [digits10_eq_log x hx, Nat.add_sub_cancel]
  exact Nat.pow_log_le_self 10 (by omega)

lemma lt_pow_digits10 (x : ℕ) (hx : 1 ≤ x) : x < 10 ^ digits10 x := by
  rw [digits10_eq_log x hx]
  exact Nat.lt_pow_succ_log_self (by norm_num) x

/-! Specification of the bounded search. -/

lemma searchIdx_spec (P : ℕ × ℕ → Bool) :
    ∀ f m0 : ℕ, (∃ k, k ≤ f ∧ P (lpair (m0 + k)) = true) →
      P (lpair (m0 + searchIdx P f (lpair m0))) = true ∧
        ∀ j, j < searchIdx P f (lpair m0) → P (lpair (m0 + j)) = false := by
  intro f
  induction f with
  | zero =>
    intro m0 hex
    obtain ⟨k, hk, hP⟩ := hex
    interval_cases k
    refine ⟨hP, ?_⟩
    intro j hj
    simp [searchIdx] at hj
  | succ f ih =>
    intro m0 hex
    by_cases hP0 : P (lpair m0) = true
    · have hs : searchIdx P (f + 1) (lpair m0) = 0 := by
        simp only [searchIdx, hP0, if_true]
      rw [hs]
      refine ⟨by simpa using hP0, ?_⟩
      intro j hj
      omega
    · have hP0' : P (lpair m0) = false := by
        cases h : P (lpair m0)
        · rfl
        · exact absurd h hP0
      have hstep : step (lpair m0) = lpair (m0 + 1) := rfl
      have hs : searchIdx P (f + 1) (lpair m0) = searchIdx P f (lpair (m0 + 1)) + 1 := by
        simp only [searchIdx, hP0', if_false, Bool.false_eq_true, hstep]
      obtain ⟨k, hk, hPk⟩ := hex
      have hk0 : k ≠ 0 := by
        intro h
        subst h
        simp only [Nat.add_zero] at hPk
        exact hP0 hPk
      obtain ⟨k', rfl⟩ : ∃ k', k = k' + 1 := ⟨k - 1, by omega⟩
      have hex' : ∃ k'', k'' ≤ f ∧ P (lpair (m0 + 1 + k'')) = true := by
        refine ⟨k', by omega, ?_⟩
        have : m0 + 1 + k' = m0 + (k' + 1) := by ring
        rw [this]
        exact hPk
      obtain ⟨hfound, hleast⟩ := ih (m0 + 1) hex'
      rw [hs]
      constructor
      · have : m0 + (searchIdx P f (lpair (m0 + 1)) + 1) =
            m0 + 1 + searchIdx P f (lpair (m0 + 1)) := by ring
        rw [this]
        exact hfound
      · intro j hj
        cases j with
        | zero => simpa using hP0'
        | succ j' =>
          have : m0 + (j' + 1) = m0 + 1 + j' := by ring
          rw [this]
          exact hleast j' (by omega)

/-! Exact decision of real ℤ[√2] comparisons. -/

lemma geQ_iff (t av bv : ℕ) :
    geQ t av bv = true ↔ (t : ℝ) ≤ (av : ℝ) + (bv : ℝ) * Real.sqrt 2 := by
  have hbs : (0 : ℝ) ≤ (bv : ℝ) * Real.sqrt 2 :=
    mul_nonneg (Nat.cast_nonneg bv) sqrt2_nonneg
  unfold geQ
  rw [Bool.or_eq_true, decide_eq_true_eq, decide_eq_true_eq]
  constructor
  · rintro (h | h)
    · have ht : (t : ℝ) ≤ (av : ℝ) := by exact_mod_cast h
      linarith
    · by_cases hta : t ≤ av
      · have ht : (t : ℝ) ≤ (av : ℝ) := by exact_mod_cast hta
        linarith
      · push_neg at hta
        have hsub : ((t - av : ℕ) : ℝ) = (t : ℝ) - (av : ℝ) :=
          Nat.cast_sub (le_of_lt hta)
        have hR : ((t - av : ℕ) : ℝ) ^ 2 ≤ 2 * (bv : ℝ) ^ 2 := by exact_mod_cast h
        have hx : (0 : ℝ) ≤ (t : ℝ) - (av : ℝ) := by
          have : (av : ℝ) ≤ (t : ℝ) := by exact_mod_cast le_of_lt hta
          linarith
        have hsq : ((t : ℝ) - (av : ℝ)) ^ 2 ≤ ((bv : ℝ) * Real.sqrt 2) ^ 2 := by
          rw [mul_pow]
          have h2 : Real.sqrt 2 ^ 2 = 2 := by rw [sq]; exact sqrt2_sq
          rw [h2]
          rw [hsub] at hR
          linarith
        have := Real.sqrt_le_sqrt hsq
        rw [Real.sqrt_sq hx, Real.sqrt_sq hbs] at this
        linarith
  · intro h
    by_cases hta : t ≤ av
    · exact Or.inl hta
    · push_neg at hta
      right
      have hsub : ((t - av : ℕ) : ℝ) = (t : ℝ) - (av : ℝ) :=
        Nat.cast_sub (le_of_lt hta)
      have hx : (0 : ℝ) ≤ (t : ℝ) - (av : ℝ) := by
        have : (av : ℝ) ≤ (t : ℝ) := by exact_mod_cast le_of_lt hta
        linarith
      have hle : (t : ℝ) - (av : ℝ) ≤ (bv : ℝ) * Real.sqrt 2 := by linarith
      have hsq := pow_le_pow_left₀ hx hle 2
      rw [mul_pow] at hsq
      have h2 : Real.sqrt 2 ^ 2 = 2 := by rw [sq]; exact sqrt2_sq
      rw [h2] at hsq
      have : ((t - av : ℕ) : ℝ) ^ 2 ≤ 2 * (bv : ℝ) ^ 2 := by
        rw [hsub]
        linarith
      exact_mod_cast this

lemma geQ_false_iff (t av bv : ℕ) :
    geQ t av bv = false ↔ (av : ℝ) + (bv : ℝ) * Real.sqrt 2 < (t : ℝ) := by
  rw [← not_le, ← geQ_iff]
  constructor
  · intro h hT
    rw [h] at hT
    exact Bool.false_ne_true hT
  · intro h
    cases hg : geQ t av bv
    · rfl
    · exact absurd hg h

/-! Characterization of the searched crossing indices. -/

lemma ceilN_spec (c : ℕ) :
    geQ (2 * 10 ^ (c - 1)) (lpair (ceilN c + 1)).1 (lpair (ceilN c + 1)).2 = true ∧
      ∀ j, j < ceilN c →
        geQ (2 * 10 ^ (c - 1)) (lpair (j + 1)).1 (lpair (j + 1)).2 = false := by
  have hex : ∃ k, k ≤ 2 * 10 ^ (c - 1) ∧
      (fun p : ℕ × ℕ => geQ (2 * 10 ^ (c - 1)) p.1 p.2) (lpair (1 + k)) = true := by
    have ht : 1 ≤ 10 ^ (c - 1) := Nat.one_le_pow _ _ (by norm_num)
    refine ⟨2 * 10 ^ (c - 1) - 1, by omega, ?_⟩
    have hk1 : 1 + (2 * 10 ^ (c - 1) - 1) = (2 * 10 ^ (c - 1) - 1) + 1 := by omega
    rw [hk1]
    have hge := (lpair_ge (2 * 10 ^ (c - 1) - 1)).1
    simp only []
    unfold geQ
    rw [Bool.or_eq_true, decide_eq_true_eq, decide_eq_true_eq]
    left
    omega
  obtain ⟨hfound, hleast⟩ :=
    searchIdx_spec (fun p : ℕ × ℕ => geQ (2 * 10 ^ (c - 1)) p.1 p.2)
      (2 * 10 ^ (c - 1)) 1 hex
  constructor
  · have h1 : 1 + searchIdx (fun p : ℕ × ℕ => geQ (2 * 10 ^ (c - 1)) p.1 p.2)
        (2 * 10 ^ (c - 1)) (lpair 1) = ceilN c + 1 := by
      unfold ceilN
      omega
    rw [h1] at hfound
    exact hfound
  · intro j hj
    have := hleast j (by unfold ceilN at hj; exact hj)
    have h2 : 1 + j = j + 1 := by omega
    rw [h2] at this
    exact this

lemma ceilD_spec (c : ℕ) :
    geQ (4 * 10 ^ (c - 1)) (2 * (lpair (ceilD c + 1)).2) (lpair (ceilD c + 1)).1 = true ∧
      ∀ j, j < ceilD c →
        geQ (4 * 10 ^ (c - 1)) (2 * (lpair (j + 1)).2) (lpair (j + 1)).1 = false := by
  have hex : ∃ k, k ≤ 2 * 10 ^ (c - 1) ∧
      (fun p : ℕ × ℕ => geQ (4 * 10 ^ (c - 1)) (2 * p.2) p.1) (lpair (1 + k)) = true := by
    refine ⟨2 * 10 ^ (c - 1), le_refl _, ?_⟩
    have hk1 : 1 + 2 * 10 ^ (c - 1) = 2 * 10 ^ (c - 1) + 1 := by omega
    rw [hk1]
    have hge := (lpair_ge (2 * 10 ^ (c - 1))).2.1
    simp only []
    unfold geQ
    rw [Bool.or_eq_true, decide_eq_true_eq, decide_eq_true_eq]
    left
    omega
  obtain ⟨hfound, hleast⟩ :=
    searchIdx_spec (fun p : ℕ × ℕ => geQ (4 * 10 ^ (c - 1)) (2 * p.2) p.1)
      (2 * 10 ^ (c - 1)) 1 hex
  constructor
  · have h1 : 1 + searchIdx (fun p : ℕ × ℕ => geQ (4 * 10 ^ (c - 1)) (2 * p.2) p.1)
        (2 * 10 ^ (c - 1)) (lpair 1) = ceilD c + 1 := by
      unfold ceilD
      omega
    rw [h1] at hfound
    exact hfound
  · intro j hj
    have := hleast j (by unfold ceilD at hj; exact hj)
    have h2 : 1 + j = j + 1 := by omega
    rw [h2] at this
    exact this

/-! Reduction of the program's ceilings of logarithms to the searched indices. -/

lemma ceil_formula_eq (u : ℝ) (hu : 0 < u) (c : ℕ) (hc : 1 ≤ c) (m : ℕ)
    (hup : (10 : ℝ) ^ (c - 1) ≤ u * e ^ m)
    (hdn : u * e ^ m < (10 : ℝ) ^ (c - 1) * e) :
    ⌈((c : ℝ) - 1 - log10 u) / log10 e⌉ = (m : ℤ) := by
  have hum : (0 : ℝ) < u * e ^ m := mul_pos hu (pow_pos e_pos m)
  have hcast : ((c - 1 : ℕ) : ℝ) = (c : ℝ) - 1 := by
    rw [Nat.cast_sub hc]
    norm_num
  have hexpand : Real.logb 10 (u * e ^ m) = Real.logb 10 u + (m : ℝ) * Real.logb 10 e := by
    rw [Real.logb_mul (ne_of_gt hu) (ne_of_gt (pow_pos e_pos m)), Real.logb_pow]
  rw [Int.ceil_eq_iff]
  constructor
  · push_cast
    rw [lt_div_iff₀ L_pos]
    have hdiv : (0 : ℝ) < u * e ^ m / e := div_pos hum e_pos
    have key : Real.logb 10 (u * e ^ m / e) < ((c - 1 : ℕ) : ℝ) := by
      rw [Real.logb_lt_iff_lt_rpow one_lt_ten hdiv, Real.rpow_natCast]
      rw [div_lt_iff₀ e_pos]
      exact hdn
    have hexp2 : Real.logb 10 (u * e ^ m / e) =
        Real.logb 10 u + (m : ℝ) * Real.logb 10 e - Real.logb 10 e := by
      rw [Real.logb_div (ne_of_gt hum) e_ne_zero, hexpand]
    rw [hexp2, hcast] at key
    simp only [log10]
    linarith
  · push_cast
    rw [div_le_iff₀ L_pos]
    have key : ((c - 1 : ℕ) : ℝ) ≤ Real.logb 10 (u * e ^ m) := by
      rw [Real.le_logb_iff_rpow_le one_lt_ten hum, Real.rpow_natCast]
      exact hup
    rw [hexpand, hcast] at key
    simp only [log10]
    linarith

lemma log_bn : log10 b + log10 2 / 2 = log10 (b * Real.sqrt 2) := by
  simp only [log10]
  rw [Real.logb_mul b_ne_zero (ne_of_gt sqrt2_pos)]
  have h : Real.logb 10 (Real.sqrt 2) = Real.logb 10 2 / 2 := by
    simp only [Real.logb]
    rw [Real.log_sqrt (by norm_num)]
    ring
  rw [h]

lemma one_le_pow10 (k : ℕ) : (1 : ℝ) ≤ 10 ^ k :=
  one_le_pow₀ (by norm_num)

lemma ceil_xn_eq (c : ℕ) (hc : 1 ≤ c) :
    ⌈((c : ℝ) - 1 - log10 b - log10 2 / 2) / log10 e⌉ = (ceilN c : ℤ) := by
  have harg : (c : ℝ) - 1 - log10 b - log10 2 / 2 = (c : ℝ) - 1 - log10 (b * Real.sqrt 2) := by
    rw [← log_bn]
    ring
  rw [harg, b_mul_sqrt2]
  have hval := lpair_val (ceilN c + 1)
  have hupN : ((2 * 10 ^ (c - 1) : ℕ) : ℝ) ≤
      ((lpair (ceilN c + 1)).1 : ℝ) + ((lpair (ceilN c + 1)).2 : ℝ) * Real.sqrt 2 :=
    (geQ_iff _ _ _).mp (ceilN_spec c).1
  apply ceil_formula_eq (e / 2) (div_pos e_pos (by norm_num)) c hc (ceilN c)
  · have h1 : (e / 2) * e ^ ceilN c = e ^ (ceilN c + 1) / 2 := by
      rw [pow_succ]
      ring
    rw [h1, ← hval]
    push_cast at hupN
    linarith
  · have hlt : e ^ ceilN c < 2 * (10 : ℝ) ^ (c - 1) := by
      cases hM : ceilN c with
      | zero =>
        rw [pow_zero]
        have := one_le_pow10 (c - 1)
        linarith
      | succ j =>
        have hj : j < ceilN c := by omega
        have hfalse := (ceilN_spec c).2 j hj
        have hlt' := (geQ_false_iff _ _ _).mp hfalse
        have hvj := lpair_val (j + 1)
        rw [hvj] at hlt'
        push_cast at hlt'
        exact hlt'
    calc (e / 2) * e ^ ceilN c
        < (e / 2) * (2 * (10 : ℝ) ^ (c - 1)) :=
          mul_lt_mul_of_pos_left hlt (div_pos e_pos (by norm_num))
      _ = (10 : ℝ) ^ (c - 1) * e := by ring

lemma ceil_xd_eq (c : ℕ) (hc : 1 ≤ c) :
    ⌈((c : ℝ) - 1 - log10 b) / log10 e⌉ = (ceilD c : ℤ) := by
  have sqrt2_mul_val : ∀ m : ℕ, Real.sqrt 2 * e ^ m =
      2 * ((lpair m).2 : ℝ) + ((lpair m).1 : ℝ) * Real.sqrt 2 := by
    intro m
    rw [← lpair_val m]
    linear_combination ((lpair m).1 : ℝ) * sqrt2_sq - sqrt2_sq * ((lpair m).1 : ℝ) +
      ((lpair m).2 : ℝ) * sqrt2_sq
  have hupD : ((4 * 10 ^ (c - 1) : ℕ) : ℝ) ≤
      2 * ((lpair (ceilD c + 1)).2 : ℝ) + ((lpair (ceilD c + 1)).1 : ℝ) * Real.sqrt 2 := by
    have := (geQ_iff _ _ _).mp (ceilD_spec c).1
    push_cast at this ⊢
    linarith
  apply ceil_formula_eq Euler57.b b_pos c hc (ceilD c)
  · have h1 : Euler57.b * e ^ ceilD c = Real.sqrt 2 * e ^ (ceilD c + 1) / 4 := by
      rw [b_eq_sqrt2_e_div4, pow_succ]
      ring
    rw [h1, sqrt2_mul_val (ceilD c + 1)]
    push_cast at hupD
    linarith
  · have hlt : Real.sqrt 2 * e ^ ceilD c < 4 * (10 : ℝ) ^ (c - 1) := by
      cases hM : ceilD c with
      | zero =>
        rw [pow_zero, mul_one]
        have := one_le_pow10 (c - 1)
        linarith [sqrt2_lt_two]
      | succ j =>
        have hj : j < ceilD c := by omega
        have hfalse := (ceilD_spec c).2 j hj
        have hlt' := (geQ_false_iff _ _ _).mp hfalse
        rw [sqrt2_mul_val (j + 1)]
        push_cast at hlt'
        linarith
    calc Euler57.b * e ^ ceilD c
        = (e / 4) * (Real.sqrt 2 * e ^ ceilD c) := by
          rw [b_eq_sqrt2_e_div4]
          ring
      _ < (e / 4) * (4 * (10 : ℝ) ^ (c - 1)) :=
          mul_lt_mul_of_pos_left hlt (div_pos e_pos (by norm_num))
      _ = (10 : ℝ) ^ (c - 1) * e := by ring

/-! Reduction of the program's floor of logarithms to exact digit counts,
using that numerators are odd and `|(1-√2)^m| < 1`. -/

lemma pair_cmp_pow (m : ℕ) (hm : 1 ≤ m) (k : ℕ) :
    ((2 * 10 ^ k : ℕ) : ℝ) ≤ ((lpair m).1 : ℝ) + ((lpair m).2 : ℝ) * Real.sqrt 2 ↔
      10 ^ k ≤ (lpair m).1 := by
  have hconj := lpair_conj_abs_lt_one m hm
  rw [abs_lt] at hconj
  constructor
  · intro h
    have h1 : 2 * ((10 ^ k : ℕ) : ℝ) < 2 * ((lpair m).1 : ℝ) + 1 := by
      push_cast at h ⊢
      linarith [hconj.2]
    have h2 : 2 * 10 ^ k < 2 * (lpair m).1 + 1 := by exact_mod_cast h1
    omega
  · intro h
    by_cases heq : (lpair m).1 = 10 ^ k
    · have hodd := lpair_a_odd m
      have hk0 : k = 0 := by
        by_contra hk
        obtain ⟨k', rfl⟩ : ∃ k', k = k' + 1 := ⟨k - 1, by omega⟩
        have hp : 10 ^ (k' + 1) = 10 ^ k' * 10 := pow_succ 10 k'
        omega
      subst hk0
      have ha1 : (lpair m).1 = 1 := by simpa using heq
      have hm1 : m = 1 := by
        by_contra hm2
        have := lpair_a_ge_three m (by omega)
        omega
      subst hm1
      have e1 : (lpair 1).1 = 1 := rfl
      have e2 : (lpair 1).2 = 1 := rfl
      rw [e1, e2]
      norm_num
      linarith [one_lt_sqrt2]
    · have h1 : 10 ^ k + 1 ≤ (lpair m).1 := by omega
      have h1R : ((10 ^ k : ℕ) : ℝ) + 1 ≤ ((lpair m).1 : ℝ) := by exact_mod_cast h1
      push_cast
      push_cast at h1R
      linarith [hconj.1]

lemma pair_cmp_pow_lt (m : ℕ) (hm : 1 ≤ m) (k : ℕ) :
    ((lpair m).1 : ℝ) + ((lpair m).2 : ℝ) * Real.sqrt 2 < ((2 * 10 ^ k : ℕ) : ℝ) ↔
      (lpair m).1 < 10 ^ k := by
  rw [← not_le, ← not_le, pair_cmp_pow m hm k]

lemma c_max_eq (n : ℕ) : c_max n = (digits10 (num n) : ℤ) - 1 := by
  have hnum : 1 ≤ num n := lpair_a_pos (n + 1)
  have hD : 1 ≤ digits10 (num n) := digits10_pos _ hnum
  have hinner : log10 b + log10 2 / 2 + (n : ℝ) * log10 e =
      Real.logb 10 (e ^ (n + 1) / 2) := by
    rw [log_bn, b_mul_sqrt2]
    simp only [log10]
    rw [← Real.logb_pow]
    rw [← Real.logb_mul (ne_of_gt (div_pos e_pos (by norm_num)))
      (ne_of_gt (pow_pos e_pos n))]
    have : e / 2 * e ^ n = e ^ (n + 1) / 2 := by
      rw [pow_succ]
      ring
    rw [this]
  unfold c_max
  rw [hinner, Int.floor_eq_iff]
  have hpos : (0 : ℝ) < e ^ (n + 1) / 2 := div_pos (pow_pos e_pos (n + 1)) (by norm_num)
  constructor
  · have hcast : (((digits10 (num n) : ℤ) - 1 : ℤ) : ℝ) = ((digits10 (num n) - 1 : ℕ) : ℝ) := by
      push_cast [hD]
      ring
    rw [hcast, Real.le_logb_iff_rpow_le one_lt_ten hpos, Real.rpow_natCast]
    rw [le_div_iff₀ (by norm_num : (0:ℝ) < 2)]
    have hle := pow_digits10_pred_le (num n) hnum
    have := (pair_cmp_pow (n + 1) (by omega) (digits10 (num n) - 1)).mpr hle
    rw [lpair_val] at this
    push_cast at this ⊢
    linarith
  · have hcast : (((digits10 (num n) : ℤ) - 1 : ℤ) : ℝ) + 1 = ((digits10 (num n) : ℕ) : ℝ) := by
      push_cast
      ring
    rw [hcast, Real.logb_lt_iff_lt_rpow one_lt_ten hpos, Real.rpow_natCast]
    rw [div_lt_iff₀ (by norm_num : (0:ℝ) < 2)]
    have hlt := lt_pow_digits10 (num n) hnum
    have := (pair_cmp_pow_lt (n + 1) (by omega) (digits10 (num n))).mpr hlt
    rw [lpair_val] at this
    push_cast at this ⊢
    linarith

/-! The master bridge: the real-logarithm program equals its exact mirror. -/

lemma i_n_eq (c n : ℕ) (hc : 1 ≤ c) : i_n c n = min ((ceilN c : ℤ)) (n : ℤ) := by
  unfold i_n
  rw [ceil_xn_eq c hc]

lemma i_d_eq (c : ℕ) (hc : 1 ≤ c) : i_d c = min ((ceilD c : ℤ)) 1000 := by
  unfold i_d
  rw [ceil_xd_eq c hc]

lemma c_max_toNat (n : ℕ) : (c_max n).toNat = cmaxC n := by
  rw [c_max_eq]
  unfold cmaxC
  omega

lemma mainLoop_eq_S (n : ℕ) : mainLoop n = S n := by
  unfold mainLoop S
  rw [c_max_toNat]
  apply Finset.sum_congr rfl
  intro cc _
  rw [i_n_eq (cc + 1) n (by omega), i_d_eq (cc + 1) (by omega)]

/-! Correctness of the resumable searches and the fused sweep. -/

lemma geQ_mono (t1 t2 a bv : ℕ) (h12 : t2 ≤ t1) (h : geQ t1 a bv = true) :
    geQ t2 a bv = true := by
  rw [geQ_iff] at h ⊢
  have hT : (t2 : ℝ) ≤ (t1 : ℝ) := by exact_mod_cast h12
  linarith

lemma advN_spec (t : ℕ) :
    ∀ f m : ℕ,
      (∃ k, k ≤ f ∧ geQ t (lpair (m + k + 1)).1 (lpair (m + k + 1)).2 = true) →
      ∃ m', advN t f m (lpair (m + 1)).1 (lpair (m + 1)).2 =
          (m', (lpair (m' + 1)).1, (lpair (m' + 1)).2) ∧
        m ≤ m' ∧ geQ t (lpair (m' + 1)).1 (lpair (m' + 1)).2 = true ∧
        ∀ j, m ≤ j → j < m' → geQ t (lpair (j + 1)).1 (lpair (j + 1)).2 = false := by
  intro f
  induction f with
  | zero =>
    intro m hex
    obtain ⟨k, hk, hP⟩ := hex
    have hk0 : k = 0 := by omega
    subst hk0
    simp only [Nat.add_zero] at hP
    exact ⟨m, rfl, le_refl m, hP, fun j h1 h2 => absurd (lt_of_le_of_lt h1 h2) (lt_irrefl m)⟩
  | succ f ih =>
    intro m hex
    by_cases hP0 : geQ t (lpair (m + 1)).1 (lpair (m + 1)).2 = true
    · refine ⟨m, ?_, le_refl m, hP0,
        fun j h1 h2 => absurd (lt_of_le_of_lt h1 h2) (lt_irrefl m)⟩
      unfold advN
      rw [if_pos hP0]
    · have hrec : advN t (f + 1) m (lpair (m + 1)).1 (lpair (m + 1)).2 =
          advN t f (m + 1) (lpair (m + 1 + 1)).1 (lpair (m + 1 + 1)).2 := by
        have e1 : (lpair (m + 1 + 1)).1 = (lpair (m + 1)).1 + 2 * (lpair (m + 1)).2 := rfl
        have e2 : (lpair (m + 1 + 1)).2 = (lpair (m + 1)).1 + (lpair (m + 1)).2 := rfl
        rw [advN, if_neg hP0, e1, e2]
      obtain ⟨k, hk, hPk⟩ := hex
      have hk0 : k ≠ 0 := by
        intro h
        subst h
        simp only [Nat.add_zero] at hPk
        exact hP0 hPk
      obtain ⟨k', rfl⟩ : ∃ k', k = k' + 1 := ⟨k - 1, by omega⟩
      have hex' : ∃ k'', k'' ≤ f ∧
          geQ t (lpair (m + 1 + k'' + 1)).1 (lpair (m + 1 + k'' + 1)).2 = true := by
        refine ⟨k', by omega, ?_⟩
        have harith : m + 1 + k' = m + (k' + 1) := by ring
        rw [harith]
        exact hPk
      obtain ⟨m', heq, hle, hPm', hleast⟩ := ih (m + 1) hex'
      refine ⟨m', by rw [hrec]; exact heq, by omega, hPm', ?_⟩
      intro j h1 h2
      by_cases hj : j = m
      · subst hj
        cases hg : geQ t (lpair (j + 1)).1 (lpair (j + 1)).2
        · rfl
        · exact absurd hg hP0
      · exact hleast j (by omega) h2

lemma advD_spec (t : ℕ) :
    ∀ f m : ℕ,
      (∃ k, k ≤ f ∧ geQ t (2 * (lpair (m + k + 1)).2) (lpair (m + k + 1)).1 = true) →
      ∃ m', advD t f m (lpair (m + 1)).1 (lpair (m + 1)).2 =
          (m', (lpair (m' + 1)).1, (lpair (m' + 1)).2) ∧
        m ≤ m' ∧ geQ t (2 * (lpair (m' + 1)).2) (lpair (m' + 1)).1 = true ∧
        ∀ j, m ≤ j → j < m' → geQ t (2 * (lpair (j + 1)).2) (lpair (j + 1)).1 = false := by
  intro f
  induction f with
  | zero =>
    intro m hex
    obtain ⟨k, hk, hP⟩ := hex
    have hk0 : k = 0 := by omega
    subst hk0
    simp only [Nat.add_zero] at hP
    exact ⟨m, rfl, le_refl m, hP, fun j h1 h2 => absurd (lt_of_le_of_lt h1 h2) (lt_irrefl m)⟩
  | succ f ih =>
    intro m hex
    by_cases hP0 : geQ t (2 * (lpair (m + 1)).2) (lpair (m + 1)).1 = true
    · refine ⟨m, ?_, le_refl m, hP0,
        fun j h1 h2 => absurd (lt_of_le_of_lt h1 h2) (lt_irrefl m)⟩
      unfold advD
      rw [if_pos hP0]
    · have hrec : advD t (f + 1) m (lpair (m + 1)).1 (lpair (m + 1)).2 =
          advD t f (m + 1) (lpair (m + 1 + 1)).1 (lpair (m + 1 + 1)).2 := by
        have e1 : (lpair (m + 1 + 1)).1 = (lpair (m + 1)).1 + 2 * (lpair (m + 1)).2 := rfl
        have e2 : (lpair (m + 1 + 1)).2 = (lpair (m + 1)).1 + (lpair (m + 1)).2 := rfl
        rw [advD, if_neg hP0, e1, e2]
      obtain ⟨k, hk, hPk⟩ := hex
      have hk0 : k ≠ 0 := by
        intro h
        subst h
        simp only [Nat.add_zero] at hPk
        exact hP0 hPk
      obtain ⟨k', rfl⟩ : ∃ k', k = k' + 1 := ⟨k - 1, by omega⟩
      have hex' : ∃ k'', k'' ≤ f ∧
          geQ t (2 * (lpair (m + 1 + k'' + 1)).2) (lpair (m + 1 + k'' + 1)).1 = true := by
        refine ⟨k', by omega, ?_⟩
        have harith : m + 1 + k' = m + (k' + 1) := by ring
        rw [harith]
        exact hPk
      obtain ⟨m', heq, hle, hPm', hleast⟩ := ih (m + 1) hex'
      refine ⟨m', by rw [hrec]; exact heq, by omega, hPm', ?_⟩
      intro j h1 h2
      by_cases hj : j = m
      · subst hj
        cases hg : geQ t (2 * (lpair (j + 1)).2) (lpair (j + 1)).1
        · rfl
        · exact absurd hg hP0
      · exact hleast j (by omega) h2

lemma advN_eq_ceilN (c m : ℕ)
    (hinv : ∀ j, j < m →
      geQ (2 * 10 ^ (c - 1)) (lpair (j + 1)).1 (lpair (j + 1)).2 = false) :
    advN (2 * 10 ^ (c - 1)) (2 * 10 ^ (c - 1)) m (lpair (m + 1)).1 (lpair (m + 1)).2 =
      (ceilN c, (lpair (ceilN c + 1)).1, (lpair (ceilN c + 1)).2) := by
  have ht : 1 ≤ 10 ^ (c - 1) := Nat.one_le_pow _ _ (by norm_num)
  have hwit : geQ (2 * 10 ^ (c - 1)) (lpair (2 * 10 ^ (c - 1) - 1 + 1)).1
      (lpair (2 * 10 ^ (c - 1) - 1 + 1)).2 = true := by
    have hge := (lpair_ge (2 * 10 ^ (c - 1) - 1)).1
    unfold geQ
    rw [Bool.or_eq_true, decide_eq_true_eq, decide_eq_true_eq]
    left
    omega
  have hm_le : m ≤ 2 * 10 ^ (c - 1) - 1 := by
    by_contra hmle
    push_neg at hmle
    have hf := hinv (2 * 10 ^ (c - 1) - 1) (by omega)
    rw [hf] at hwit
    exact Bool.false_ne_true hwit
  have hex : ∃ k, k ≤ 2 * 10 ^ (c - 1) ∧
      geQ (2 * 10 ^ (c - 1)) (lpair (m + k + 1)).1 (lpair (m + k + 1)).2 = true := by
    refine ⟨2 * 10 ^ (c - 1) - 1 - m, by omega, ?_⟩
    have harith : m + (2 * 10 ^ (c - 1) - 1 - m) = 2 * 10 ^ (c - 1) - 1 := by omega
    rw [harith]
    exact hwit
  obtain ⟨m', heq, hle, hPm', hleast⟩ := advN_spec (2 * 10 ^ (c - 1)) (2 * 10 ^ (c - 1)) m hex
  have hm'_eq : m' = ceilN c := by
    rcases lt_trichotomy m' (ceilN c) with h | h | h
    · have hf := (ceilN_spec c).2 m' h
      rw [hf] at hPm'
      exact absurd hPm' Bool.false_ne_true
    · exact h
    · by_cases hcm : ceilN c < m
      · have hf := hinv (ceilN c) hcm
        have htrue := (ceilN_spec c).1
        rw [hf] at htrue
        exact absurd htrue Bool.false_ne_true
      · push_neg at hcm
        have hf := hleast (ceilN c) hcm h
        have htrue := (ceilN_spec c).1
        rw [hf] at htrue
        exact absurd htrue Bool.false_ne_true
  rw [hm'_eq] at heq
  exact heq

lemma advD_eq_ceilD (c m : ℕ)
    (hinv : ∀ j, j < m →
      geQ (4 * 10 ^ (c - 1)) (2 * (lpair (j + 1)).2) (lpair (j + 1)).1 = false) :
    advD (4 * 10 ^ (c - 1)) (2 * 10 ^ (c - 1)) m (lpair (m + 1)).1 (lpair (m + 1)).2 =
      (ceilD c, (lpair (ceilD c + 1)).1, (lpair (ceilD c + 1)).2) := by
  have ht : 1 ≤ 10 ^ (c - 1) := Nat.one_le_pow _ _ (by norm_num)
  have hwit : geQ (4 * 10 ^ (c - 1)) (2 * (lpair (2 * 10 ^ (c - 1) + 1)).2)
      (lpair (2 * 10 ^ (c - 1) + 1)).1 = true := by
    have hge := (lpair_ge (2 * 10 ^ (c - 1))).2.1
    unfold geQ
    rw [Bool.or_eq_true, decide_eq_true_eq, decide_eq_true_eq]
    left
    omega
  have hm_le : m ≤ 2 * 10 ^ (c - 1) := by
    by_contra hmle
    push_neg at hmle
    have hf := hinv (2 * 10 ^ (c - 1)) (by omega)
    rw [hf] at hwit
    exact Bool.false_ne_true hwit
  have hex : ∃ k, k ≤ 2 * 10 ^ (c - 1) ∧
      geQ (4 * 10 ^ (c - 1)) (2 * (lpair (m + k + 1)).2) (lpair (m + k + 1)).1 = true := by
    refine ⟨2 * 10 ^ (c - 1) - m, by omega, ?_⟩
    have harith : m + (2 * 10 ^ (c - 1) - m) = 2 * 10 ^ (c - 1) := by omega
    rw [harith]
    exact hwit
  obtain ⟨m', heq, hle, hPm', hleast⟩ := advD_spec (4 * 10 ^ (c - 1)) (2 * 10 ^ (c - 1)) m hex
  have hm'_eq : m' = ceilD c := by
    rcases lt_trichotomy m' (ceilD c) with h | h | h
    · have hf := (ceilD_spec c).2 m' h
      rw [hf] at hPm'
      exact absurd hPm' Bool.false_ne_true
    · exact h
    · by_cases hcm : ceilD c < m
      · have hf := hinv (ceilD c) hcm
        have htrue := (ceilD_spec c).1
        rw [hf] at htrue
        exact absurd htrue Bool.false_ne_true
      · push_neg at hcm
        have hf := hleast (ceilD c) hcm h
        have htrue := (ceilD_spec c).1
        rw [hf] at htrue
        exact absurd htrue Bool.false_ne_true
  rw [hm'_eq] at heq
  exact heq

lemma sweepAux_eq (n : ℕ) :
    ∀ cnt c mN mD : ℕ, 1 ≤ c →
      (∀ j, j < mN →
        geQ (2 * 10 ^ (c - 1)) (lpair (j + 1)).1 (lpair (j + 1)).2 = false) →
      (∀ j, j < mD →
        geQ (4 * 10 ^ (c - 1)) (2 * (lpair (j + 1)).2) (lpair (j + 1)).1 = false) →
      sweepAux n cnt (10 ^ (c - 1)) (mN, (lpair (mN + 1)).1, (lpair (mN + 1)).2)
          (mD, (lpair (mD + 1)).1, (lpair (mD + 1)).2) =
        ∑ j ∈ Finset.range cnt,
          (min ((ceilD (c + j) : ℤ)) 1000 - min ((ceilN (c + j) : ℤ)) (n : ℤ)) := by
  intro cnt
  induction cnt with
  | zero =>
    intro c mN mD hc hiN hiD
    simp [sweepAux]
  | succ cnt ih =>
    intro c mN mD hc hiN hiD
    have hN := advN_eq_ceilN c mN hiN
    have hD := advD_eq_ceilD c mD hiD
    have hunfold : sweepAux n (cnt + 1) (10 ^ (c - 1))
        (mN, (lpair (mN + 1)).1, (lpair (mN + 1)).2)
        (mD, (lpair (mD + 1)).1, (lpair (mD + 1)).2) =
        (min (((advD (4 * 10 ^ (c - 1)) (2 * 10 ^ (c - 1)) mD
              (lpair (mD + 1)).1 (lpair (mD + 1)).2).1 : ℤ)) 1000 -
          min (((advN (2 * 10 ^ (c - 1)) (2 * 10 ^ (c - 1)) mN
              (lpair (mN + 1)).1 (lpair (mN + 1)).2).1 : ℤ)) (n : ℤ)) +
          sweepAux n cnt (10 * 10 ^ (c - 1))
            (advN (2 * 10 ^ (c - 1)) (2 * 10 ^ (c - 1)) mN
              (lpair (mN + 1)).1 (lpair (mN + 1)).2)
            (advD (4 * 10 ^ (c - 1)) (2 * 10 ^ (c - 1)) mD
              (lpair (mD + 1)).1 (lpair (mD + 1)).2) := by
      show sweepAux n (cnt + 1) _ _ _ = _
      rw [sweepAux]
    rw [hunfold, hN, hD]
    have hp10 : 10 * 10 ^ (c - 1) = 10 ^ (c + 1 - 1) := by
      have hc1 : c + 1 - 1 = (c - 1) + 1 := by omega
      rw [hc1, pow_succ]
      ring
    have hiN' : ∀ j, j < ceilN c →
        geQ (2 * 10 ^ (c + 1 - 1)) (lpair (j + 1)).1 (lpair (j + 1)).2 = false := by
      intro j hj
      have hfc := (ceilN_spec c).2 j hj
      cases hg : geQ (2 * 10 ^ (c + 1 - 1)) (lpair (j + 1)).1 (lpair (j + 1)).2
      · rfl
      · have hmono := geQ_mono (2 * 10 ^ (c + 1 - 1)) (2 * 10 ^ (c - 1)) _ _
          (by
            have := Nat.pow_le_pow_right (by norm_num : 1 ≤ 10) (by omega : c - 1 ≤ c + 1 - 1)
            omega) hg
        rw [hfc] at hmono
        exact absurd hmono Bool.false_ne_true
    have hiD' : ∀ j, j < ceilD c →
        geQ (4 * 10 ^ (c + 1 - 1)) (2 * (lpair (j + 1)).2) (lpair (j + 1)).1 = false := by
      intro j hj
      have hfc := (ceilD_spec c).2 j hj
      cases hg : geQ (4 * 10 ^ (c + 1 - 1)) (2 * (lpair (j + 1)).2) (lpair (j + 1)).1
      · rfl
      · have hmono := geQ_mono (4 * 10 ^ (c + 1 - 1)) (4 * 10 ^ (c - 1)) _ _
          (by
            have := Nat.pow_le_pow_right (by norm_num : 1 ≤ 10) (by omega : c - 1 ≤ c + 1 - 1)
            omega) hg
        rw [hfc] at hmono
        exact absurd hmono Bool.false_ne_true
    rw [hp10]
    rw [ih (c + 1) (ceilN c) (ceilD c) (by omega) hiN' hiD']
    rw [Finset.sum_range_succ']
    have hterm : ∀ j, c + 1 + j = c + (j + 1) := by intro j; ring
    have hsum : ∑ j ∈ Finset.range cnt,
        (min ((ceilD (c + 1 + j) : ℤ)) 1000 - min ((ceilN (c + 1 + j) : ℤ)) (n : ℤ)) =
        ∑ j ∈ Finset.range cnt,
          (min ((ceilD (c + (j + 1)) : ℤ)) 1000 - min ((ceilN (c + (j + 1)) : ℤ)) (n : ℤ)) := by
      apply Finset.sum_congr rfl
      intro j _
      rw [hterm j]
    rw [hsum]
    have hzero : c + 0 = c := by ring
    rw [hzero]
    ring

lemma S_eq_S2 (n : ℕ) : S n = S2 n := by
  have hsw := sweepAux_eq n (cmaxC n) 1 0 0 (le_refl 1)
    (fun j hj => absurd hj (Nat.not_lt_zero j))
    (fun j hj => absurd hj (Nat.not_lt_zero j))
  have h0 : (lpair 1).1 = 1 := rfl
  have h1 : (lpair 1).2 = 1 := rfl
  have hpow : (10 : ℕ) ^ (1 - 1) = 1 := by norm_num
  rw [h0, h1, hpow] at hsw
  unfold S S2
  rw [hsw]
  apply Finset.sum_congr rfl
  intro j _
  rw [Nat.add_comm 1 j]

lemma mainLoop_eq_S2 (n : ℕ) : mainLoop n = S2 n := by
  rw [mainLoop_eq_S, S_eq_S2]

/-! Invariants of the convergent pairs and fast brute-force counting. -/

lemma goodPair_step (p : ℕ × ℕ) (h : goodPair p) : goodPair (step p) := by
  have e1 : (step p).1 = p.1 + 2 * p.2 := rfl
  have e2 : (step p).2 = p.1 + p.2 := rfl
  unfold goodPair at h ⊢
  rw [e1, e2]
  omega

lemma goodPair_lpair (i : ℕ) : goodPair (lpair (i + 1)) := by
  induction i with
  | zero => exact ⟨by decide, by decide, by decide⟩
  | succ k ih => exact goodPair_step (lpair (k + 1)) ih

lemma digits10_mono (x y : ℕ) (hx : 1 ≤ x) (hxy : x ≤ y) : digits10 x ≤ digits10 y := by
  rw [digits10_eq_log x hx, digits10_eq_log y (le_trans hx hxy)]
  exact Nat.succ_le_succ (Nat.log_mono_right hxy)

lemma pow_digits10_le_iff (d x : ℕ) (hd : 1 ≤ d) (hx : 1 ≤ x) :
    10 ^ digits10 d ≤ x ↔ digits10 d < digits10 x := by
  rw [digits10_eq_log d hd, digits10_eq_log x hx]
  rw [Nat.pow_le_iff_le_log (by norm_num) (by omega : x ≠ 0)]
  omega

lemma digits10_le_of_lt_pow (x c : ℕ) (hx : 1 ≤ x) (h : x < 10 ^ c) : digits10 x ≤ c := by
  rw [digits10_eq_log x hx]
  have := Nat.log_lt_of_lt_pow (by omega : x ≠ 0) h
  omega

lemma digits_step_den (p : ℕ × ℕ) (hp : goodPair p) :
    digits10 (step p).2 =
      if 10 ^ digits10 p.2 ≤ (step p).2 then digits10 p.2 + 1 else digits10 p.2 := by
  obtain ⟨h1, h2, h3⟩ := hp
  have e2 : (step p).2 = p.1 + p.2 := rfl
  have hd' : 1 ≤ (step p).2 := by rw [e2]; omega
  by_cases hcross : 10 ^ digits10 p.2 ≤ (step p).2
  · rw [if_pos hcross]
    have hge : digits10 p.2 < digits10 (step p).2 :=
      (pow_digits10_le_iff p.2 (step p).2 h1 hd').mp hcross
    have hle : digits10 (step p).2 ≤ digits10 p.2 + 1 := by
      apply digits10_le_of_lt_pow _ _ hd'
      have hpow : p.2 < 10 ^ digits10 p.2 := lt_pow_digits10 p.2 h1
      have hub : (step p).2 ≤ 3 * p.2 := by rw [e2]; omega
      have hps : 10 ^ (digits10 p.2 + 1) = 10 ^ digits10 p.2 * 10 := pow_succ 10 _
      omega
    omega
  · rw [if_neg hcross]
    push_neg at hcross
    have hle : digits10 (step p).2 ≤ digits10 p.2 := digits10_le_of_lt_pow _ _ hd' hcross
    have hge : digits10 p.2 ≤ digits10 (step p).2 :=
      digits10_mono p.2 (step p).2 h1 (by rw [e2]; omega)
    omega

lemma bruteFast_eq : ∀ (f : ℕ) (p : ℕ × ℕ), goodPair p →
    bruteFast f p.1 p.2 (10 ^ digits10 p.2) = bruteAux f p := by
  intro f
  induction f with
  | zero => intro p hp; rfl
  | succ f ih =>
    intro p hp
    have e1 : (step p).1 = p.1 + 2 * p.2 := rfl
    have e2 : (step p).2 = p.1 + p.2 := rfl
    have hgood := goodPair_step p hp
    rw [bruteFast, bruteAux, ← e1, ← e2]
    have hpw : (if 10 ^ digits10 p.2 ≤ (step p).2 then 10 * 10 ^ digits10 p.2
        else 10 ^ digits10 p.2) = 10 ^ digits10 (step p).2 := by
      rw [digits_step_den p hp]
      by_cases h : 10 ^ digits10 p.2 ≤ (step p).2
      · rw [if_pos h, if_pos h, pow_succ]
        ring
      · rw [if_neg h, if_neg h]
    rw [hpw]
    have hiff : 10 ^ digits10 (step p).2 ≤ (step p).1 ↔
        digits10 (step p).2 < digits10 (step p).1 :=
      pow_digits10_le_iff (step p).2 (step p).1 hgood.1 (le_trans hgood.1 hgood.2.1)
    have hrec := ih (step p) hgood
    rw [hrec]
    congr 1
    by_cases h : 10 ^ digits10 (step p).2 ≤ (step p).1
    · rw [if_pos h, if_pos (hiff.mp h)]
    · rw [if_neg h, if_neg (fun hc => h (hiff.mpr hc))]

lemma bruteCount_eq_fast (n : ℕ) : bruteCount n = bruteFast n 1 1 10 := by
  have h := bruteFast_eq n (1, 1) ⟨le_refl 1, le_refl 1, by norm_num⟩
  have hd : digits10 1 = 1 := rfl
  rw [hd, pow_one] at h
  unfold bruteCount
  exact h.symm

/-! Digit-count relations between numerators and denominators. -/

lemma den_le_num (i : ℕ) : den i ≤ num i := (goodPair_lpair i).2.1

lemma den_pos (i : ℕ) : 1 ≤ den i := (goodPair_lpair i).1

lemma num_pos (i : ℕ) : 1 ≤ num i := le_trans (den_pos i) (den_le_num i)

lemma digits_den_le_num (i : ℕ) : digits10 (den i) ≤ digits10 (num i) :=
  digits10_mono (den i) (num i) (den_pos i) (den_le_num i)

lemma digits_num_le_den_succ (i : ℕ) : digits10 (num i) ≤ digits10 (den i) + 1 := by
  apply digits10_le_of_lt_pow _ _ (num_pos i)
  have h1 := (goodPair_lpair i).2.2
  have h2 : den i < 10 ^ digits10 (den i) := lt_pow_digits10 (den i) (den_pos i)
  have h3 : 10 ^ (digits10 (den i) + 1) = 10 ^ digits10 (den i) * 10 := pow_succ 10 _
  have h4 : (lpair (i + 1)).1 = num i := rfl
  have h5 : (lpair (i + 1)).2 = den i := rfl
  rw [h4, h5] at h1
  omega

lemma num_le_succ (i : ℕ) : num i ≤ num (i + 1) := by
  have e1 : num (i + 1) = num i + 2 * den i := rfl
  omega

lemma num_monotone : Monotone num := monotone_nat_of_le_succ num_le_succ

/-! Lower bound for the program's value in the supported range. -/

lemma ceilN_le_ceilD (c : ℕ) (hc : 1 ≤ c) : ceilN c ≤ ceilD c := by
  have h1 := ceil_xn_eq c hc
  have h2 := ceil_xd_eq c hc
  have hlog2 : 0 ≤ log10 2 := by
    simp only [log10]
    exact Real.logb_nonneg one_lt_ten (by norm_num)
  have harg : ((c : ℝ) - 1 - log10 b - log10 2 / 2) / log10 e ≤
      ((c : ℝ) - 1 - log10 b) / log10 e := by
    rw [div_le_div_iff_of_pos_right L_pos]
    linarith
  have hceil := Int.ceil_mono harg
  rw [h1, h2] at hceil
  exact_mod_cast hceil

lemma cmaxC_ge_one (n : ℕ) (h3 : 3 ≤ n) : 1 ≤ cmaxC n := by
  have h17 : (17 : ℕ) ≤ num n := by
    have hm := num_monotone h3
    have h3v : num 3 = 17 := rfl
    rw [h3v] at hm
    exact hm
  have hd : 2 ≤ digits10 (num n) := by
    have h9 : digits10 9 = 1 := rfl
    have hpow : 10 ^ digits10 9 ≤ num n := by
      rw [h9, pow_one]
      omega
    have hlt := (pow_digits10_le_iff 9 (num n) (by norm_num) (num_pos n)).mp hpow
    rw [h9] at hlt
    omega
  unfold cmaxC
  omega

lemma S_ge_one (n : ℕ) (h3 : 3 ≤ n) (h1000 : n ≤ 1000) : 1 ≤ S n := by
  unfold S
  have hM := cmaxC_ge_one n h3
  have hterm0 : (min ((ceilD (0 + 1) : ℤ)) 1000 - min ((ceilN (0 + 1) : ℤ)) (n : ℤ)) = 1 := by
    have hcD : ceilD 1 = 1 := by decide
    have hcN : ceilN 1 = 0 := by decide
    norm_num [hcD, hcN]
  have hnonneg : ∀ cc ∈ Finset.range (cmaxC n),
      0 ≤ min ((ceilD (cc + 1) : ℤ)) 1000 - min ((ceilN (cc + 1) : ℤ)) (n : ℤ) := by
    intro cc _
    have hle := ceilN_le_ceilD (cc + 1) (by omega)
    have h1 : min ((ceilN (cc + 1) : ℤ)) (n : ℤ) ≤ min ((ceilD (cc + 1) : ℤ)) 1000 := by
      apply le_min
      · calc min ((ceilN (cc + 1) : ℤ)) (n : ℤ) ≤ (ceilN (cc + 1) : ℤ) := min_le_left _ _
          _ ≤ (ceilD (cc + 1) : ℤ) := by exact_mod_cast hle
      · calc min ((ceilN (cc + 1) : ℤ)) (n : ℤ) ≤ (n : ℤ) := min_le_right _ _
          _ ≤ 1000 := by exact_mod_cast h1000
    omega
  calc (1 : ℤ) = min ((ceilD (0 + 1) : ℤ)) 1000 - min ((ceilN (0 + 1) : ℤ)) (n : ℤ) :=
        hterm0.symm
    _ ≤ ∑ cc ∈ Finset.range (cmaxC n),
          (min ((ceilD (cc + 1) : ℤ)) 1000 - min ((ceilN (cc + 1) : ℤ)) (n : ℤ)) :=
        Finset.single_le_sum hnonneg (Finset.mem_range.mpr (by omega))

/-! Claim theorems. -/

set_option maxRecDepth 100000 in
set_option maxHeartbeats 8000000 in
/-- C1: for the input `n = 1000`, the closed-form digit-counting function
returns exactly 153. -/
theorem count_1000_eq_153 : main 1000 = Except.ok 153 := by
  have h : mainLoop 1000 = 153 := by
    rw [mainLoop_eq_S2]
    decide
  unfold main
  rw [if_pos (by norm_num : (0 : ℤ) < 1000)]
  have ht : (1000 : ℤ).toNat = 1000 := rfl
  rw [ht, h]

set_option maxRecDepth 100000 in
/-- C2 counterexample: the closed-form count does not equal the exact-integer
brute-force recurrence count for every positive `n`: at `n = 3` the closed
form returns 1 while the brute-force count of indices `i ∈ [1, 3]` with more
numerator digits is 0. -/
theorem closed_form_ne_brute_at_3 : main 3 = Except.ok 1 ∧ bruteCount 3 = 0 := by
  constructor
  · have h : mainLoop 3 = 1 := by
      rw [mainLoop_eq_S2]
      decide
    unfold main
    rw [if_pos (by norm_num : (0 : ℤ) < 3)]
    have ht : (3 : ℤ).toNat = 3 := rfl
    rw [ht, h]
  · decide

set_option maxRecDepth 100000 in
set_option maxHeartbeats 16000000 in
/-- C2 amended: the closed-form count agrees with the exact-integer
brute-force recurrence count at the spec's two directly tested inputs,
`n = 8` and `n = 1000` (it does not agree for every positive `n`). -/
theorem closed_form_eq_brute_at_8_and_1000 :
    main 8 = Except.ok ((bruteCount 8 : ℤ)) ∧
      main 1000 = Except.ok ((bruteCount 1000 : ℤ)) := by
  have hb8 : bruteCount 8 = 1 := by decide
  have hb1000 : bruteCount 1000 = 153 := by
    rw [bruteCount_eq_fast]
    decide
  constructor
  · have h : mainLoop 8 = 1 := by
      rw [mainLoop_eq_S2]
      decide
    unfold main
    rw [if_pos (by norm_num : (0 : ℤ) < 8), hb8]
    have ht : (8 : ℤ).toNat = 8 := rfl
    rw [ht, h]
    norm_num
  · have h : mainLoop 1000 = 153 := by
      rw [mainLoop_eq_S2]
      decide
    unfold main
    rw [if_pos (by norm_num : (0 : ℤ) < 1000), hb1000]
    have ht : (1000 : ℤ).toNat = 1000 := rfl
    rw [ht, h]
    norm_num

set_option maxRecDepth 100000 in
set_option maxHeartbeats 8000000 in
/-- C3: the claim that `count(n)` is a non-negative integer for every positive
`n` fails on the code: at `n = 1035` the program returns `-61`, because the
denominator clamp hard-codes the literal 1000 instead of `n`. -/
theorem count_1035_negative : main 1035 = Except.ok (-61) ∧ (-61 : ℤ) < 0 := by
  refine ⟨?_, by norm_num⟩
  have h : mainLoop 1035 = -61 := by
    rw [mainLoop_eq_S2]
    decide
  unfold main
  rw [if_pos (by norm_num : (0 : ℤ) < 1035)]
  have ht : (1035 : ℤ).toNat = 1035 := rfl
  rw [ht, h]

set_option maxRecDepth 100000 in
set_option maxHeartbeats 16000000 in
/-- C4: monotonicity fails on the code: `1005 ≤ 1006` but
`count(1005) = 153 > 150 = count(1006)`, again due to the hard-coded 1000 in
the denominator clamp. -/
theorem count_not_monotone_at_1005_1006 :
    main 1005 = Except.ok 153 ∧ main 1006 = Except.ok 150 ∧ (150 : ℤ) < 153 := by
  refine ⟨?_, ?_, by norm_num⟩
  · have h : mainLoop 1005 = 153 := by
      rw [mainLoop_eq_S2]
      decide
    unfold main
    rw [if_pos (by norm_num : (0 : ℤ) < 1005)]
    have ht : (1005 : ℤ).toNat = 1005 := rfl
    rw [ht, h]
  · have h : mainLoop 1006 = 150 := by
      rw [mainLoop_eq_S2]
      decide
    unfold main
    rw [if_pos (by norm_num : (0 : ℤ) < 1006)]
    have ht : (1006 : ℤ).toNat = 1006 := rfl
    rw [ht, h]

set_option maxRecDepth 100000 in
/-- C5: `count(8)` returns 1; among the first 8 expansions exactly the 8th
qualifies, and it is `1393 / 985`. -/
theorem count_8_eq_one :
    main 8 = Except.ok 1 ∧
      (Finset.Icc 1 8).filter (fun i => digits10 (den i) < digits10 (num i)) = {8} ∧
      num 8 = 1393 ∧ den 8 = 985 := by
  refine ⟨?_, by decide, by decide, by decide⟩
  have h : mainLoop 8 = 1 := by
    rw [mainLoop_eq_S2]
    decide
  unfold main
  rw [if_pos (by norm_num : (0 : ℤ) < 8)]
  have ht : (8 : ℤ).toNat = 8 := rfl
  rw [ht, h]

set_option maxRecDepth 100000 in
set_option maxHeartbeats 8000000 in
/-- C6: the code's `i_d` clamps the ceiling to the literal 1000, not to the
caller-supplied `n` as the spec's step 3b states: at threshold `c = 385` the
code yields 1000, while the spec formula at `n = 1006` yields 1004. -/
theorem i_d_clamps_to_1000_not_n : i_d 385 = 1000 ∧ i_dSpec 385 1006 = 1004 := by
  have hc : ceilD 385 = 1004 := by decide
  constructor
  · rw [i_d_eq 385 (by norm_num), hc]
    decide
  · unfold i_dSpec
    rw [ceil_xd_eq 385 (by norm_num), hc]
    decide

/-- C7: `main` fails with the InvalidArgument condition exactly when its
argument is not a positive integer: `count(0)` and `count(-5)` both fail, and
a value is returned precisely for positive arguments. -/
theorem invalid_argument_iff :
    main 0 = Except.error Err.invalidArgument ∧
      main (-5) = Except.error Err.invalidArgument ∧
      ∀ n : ℤ, (∃ v, main n = Except.ok v) ↔ 0 < n := by
  refine ⟨?_, ?_, ?_⟩
  · unfold main
    rw [if_neg (by norm_num : ¬(0 : ℤ) < 0)]
  · unfold main
    rw [if_neg (by norm_num : ¬(0 : ℤ) < -5)]
  · intro n
    constructor
    · rintro ⟨v, hv⟩
      by_cases h : 0 < n
      · exact h
      · unfold main at hv
        rw [if_neg h] at hv
        simp at hv
    · intro h
      refine ⟨mainLoop n.toNat, ?_⟩
      unfold main
      rw [if_pos h]

/-- C7 witness: at the concrete argument 7 the equivalence instantiates to a
true statement. -/
theorem invalid_argument_iff_witness :
    main 0 = Except.error Err.invalidArgument ∧ ((∃ v, main 7 = Except.ok v) ↔ 0 < (7 : ℤ)) :=
  ⟨invalid_argument_iff.1, invalid_argument_iff.2.2 7⟩

/-- C8: for every index `i ≥ 0` of the exact convergent recurrence, the digit
count of the numerator exceeds that of the denominator by 0 or 1 — never 2 or
more, and never negatively. -/
theorem digit_gap_invariant (i : ℕ) :
    digits10 (den i) ≤ digits10 (num i) ∧ digits10 (num i) ≤ digits10 (den i) + 1 :=
  ⟨digits_den_le_num i, digits_num_le_den_succ i⟩

/-- C8 witness: the invariant at the concrete index 8 (`1393 / 985`). -/
theorem digit_gap_invariant_witness :
    digits10 (den 8) ≤ digits10 (num 8) ∧ digits10 (num 8) ≤ digits10 (den 8) + 1 :=
  digit_gap_invariant 8

set_option maxRecDepth 10000 in
/-- C9 counterexample: `c_max` does not equal the digit count of the `n`-th
numerator: at `n = 8` the loop bound is `c_max = 3` while `n_8 = 1393` has 4
digits. -/
theorem c_max_8_ne_digit_count : c_max 8 = 3 ∧ digits10 (num 8) = 4 := by
  have hd : digits10 (num 8) = 4 := by decide
  constructor
  · rw [c_max_eq, hd]
    norm_num
  · exact hd

/-- C9 amended: for every `n`, the loop bound `c_max` computed in step 2
equals the decimal digit count of the exact numerator `n_n` minus one. -/
theorem c_max_eq_digit_count_sub_one (n : ℕ) :
    c_max n = (digits10 (num n) : ℤ) - 1 :=
  c_max_eq n

/-- C9 amended witness: the amended equality at the concrete input 8. -/
theorem c_max_eq_digit_count_sub_one_witness :
    c_max 8 = (digits10 (num 8) : ℤ) - 1 :=
  c_max_eq_digit_count_sub_one 8

set_option maxRecDepth 100000 in
set_option maxHeartbeats 8000000 in
/-- C10 counterexample: the claimed consequence `count(n) ≥ 1` for every
`n ≥ 3` is false on the code: at `n = 1036` the program returns `-61 < 1`. -/
theorem count_1036_lt_one : main 1036 = Except.ok (-61) ∧ (-61 : ℤ) < 1 := by
  refine ⟨?_, by norm_num⟩
  have h : mainLoop 1036 = -61 := by
    rw [mainLoop_eq_S2]
    decide
  unfold main
  rw [if_pos (by norm_num : (0 : ℤ) < 1036)]
  have ht : (1036 : ℤ).toNat = 1036 := rfl
  rw [ht, h]

/-- C10 amended: the `c = 1` loop iteration contributes exactly 1 for every
`n` (`i_d(1) = 1` and `i_n(1) = 0` independently of `n`), the loop body runs
for `n ≥ 3`, and consequently `count(n) ≥ 1` for every `3 ≤ n ≤ 1000` — even
though no expansion index has a one-digit numerator with strictly more digits
than its denominator. -/
theorem c_eq_one_band_contributes_one :
    i_d 1 = 1 ∧ (∀ n : ℕ, i_n 1 n = 0) ∧
      (∀ n : ℕ, 3 ≤ n → 1 ≤ c_max n) ∧
      (∀ n : ℕ, 3 ≤ n → n ≤ 1000 → 1 ≤ mainLoop n) ∧
      (∀ i : ℕ, digits10 (num i) = 1 → digits10 (den i) = 1) := by
  refine ⟨?_, ?_, ?_, ?_, ?_⟩
  · rw [i_d_eq 1 (le_refl 1)]
    decide
  · intro n
    rw [i_n_eq 1 n (le_refl 1)]
    have h0 : ceilN 1 = 0 := by decide
    rw [h0]
    have : ((0 : ℕ) : ℤ) = 0 := rfl
    rw [this]
    exact min_eq_left (Int.natCast_nonneg n)
  · intro n h3
    rw [c_max_eq]
    have h := cmaxC_ge_one n h3
    unfold cmaxC at h
    omega
  · intro n h3 h1000
    rw [mainLoop_eq_S]
    exact S_ge_one n h3 h1000
  · intro i hi
    have h1 := digits_den_le_num i
    have h2 := digits10_pos (den i) (den_pos i)
    omega

/-- C10 amended witness: the amended statement instantiated at `n = 9` and at
index 1 of the recurrence. -/
theorem c_eq_one_band_contributes_one_witness :
    i_n 1 9 = 0 ∧ 1 ≤ c_max 9 ∧ 1 ≤ mainLoop 9 :=
  ⟨c_eq_one_band_contributes_one.2.1 9,
    c_eq_one_band_contributes_one.2.2.1 9 (by norm_num),
    c_eq_one_band_contributes_one.2.2.2.1 9 (by norm_num) (by norm_num)⟩

end Euler57
